import Mathlib

/-!
Verification of the `reformat_java_file` transform of `src/reformat_java.py`.

The transform is modelled as a pure function on character lists
(`List Char`), mirroring the Python source line by line:

* `pyStrip`       — `str.strip()` (leading/trailing whitespace removal);
* the skip guard  — `'\n' in content and len(content.split('\n')) > 5`;
* `nlToSp`        — `content.replace('\n', ' ')`;
* `subF` / `pySub`— the semantics of `re.sub(pattern, repl, s)` for the
                    fixed patterns used by the source: a left-to-right
                    scan replacing non-overlapping leftmost matches, with
                    each pattern compiled by hand to a `Matcher` that
                    reports the length of the (greedy, backtracking-aware)
                    match starting at the current position;
* `rules`         — the sixteen ordered substitution rules of the source;
* `collapseNl`    — the blank-line compactor `re.sub(r'\n\x7b3,\x7d', '\n\n', s)`;
* `indentGo`      — the indentation pass (depth as a Python `int`,
                    modelled by `Int`, with `max 0 (d - 1)` clamping);
* `joinNl`        — `'\n'.join(...)`, and the final `+ '\n'`.

Whitespace (`\s`, `str.strip`, `str.isspace`) uses Python's whitespace
set; regex word characters (`\b`) use the ASCII word characters
`[A-Za-z0-9_]` (the inputs of interest are ASCII).
-/

namespace Reformat

/-- The set of character codes Python's `str` type treats as whitespace
(`str.strip`, `str.isspace`, and `\s` in `re` for text patterns). -/
def pySpaceCodes : List Nat :=
  [9, 10, 11, 12, 13, 28, 29, 30, 31, 32, 133, 160, 5760,
   8192, 8193, 8194, 8195, 8196, 8197, 8198, 8199, 8200, 8201, 8202,
   8232, 8233, 8239, 8287, 12288]

/-- Python whitespace test for a character. -/
def isPySpace (c : Char) : Bool := pySpaceCodes.contains c.toNat

/-- Regex word character (ASCII): letters, digits, underscore. -/
def isWordChar (c : Char) : Bool :=
  (decide (65 ≤ c.toNat) && decide (c.toNat ≤ 90)) ||
  (decide (97 ≤ c.toNat) && decide (c.toNat ≤ 122)) ||
  (decide (48 ≤ c.toNat) && decide (c.toNat ≤ 57)) ||
  decide (c.toNat = 95)

/-- `pfx p l` iff `p` is a leading segment of `l` (literal-prefix test). -/
def pfx : List Char → List Char → Bool
  | [], _ => true
  | _ :: _, [] => false
  | p :: ps, c :: cs => p == c && pfx ps cs

/-- Length of the maximal leading run of characters satisfying `p`. -/
def runLen (p : Char → Bool) : List Char → Nat
  | [] => 0
  | c :: cs => if p c then runLen p cs + 1 else 0

/-- Length of the maximal leading whitespace run (greedy `\s+` match). -/
def wsRun (l : List Char) : Nat := runLen isPySpace l

/-- Length of the maximal leading newline run (greedy newline match). -/
def nlRun (l : List Char) : Nat := runLen (fun c => c == '\n') l

/-- Python `str.strip()`: drop leading and trailing whitespace. -/
def pyStrip (l : List Char) : List Char :=
  (((l.dropWhile isPySpace).reverse).dropWhile isPySpace).reverse

/-- Python `s.split('\n')`: split on newlines, keeping empty pieces
(`''.split('\n') = ['']`). -/
def pySplitNl : List Char → List (List Char)
  | [] => [[]]
  | c :: cs =>
    if c == '\n' then [] :: pySplitNl cs
    else
      match pySplitNl cs with
      | [] => [[c]]
      | p :: ps => (c :: p) :: ps

/-- Python `content.replace('\n', ' ')`. -/
def nlToSp (l : List Char) : List Char :=
  l.map (fun c => if c == '\n' then ' ' else c)

/-- A compiled pattern: given whether the previous character of the
subject is a word character (for word-boundary tests) and the remaining
subject text, report the length of the match starting here, if any. -/
def Matcher := Bool → List Char → Option Nat

/-- Pattern `\bKW\s+` for a keyword `KW`: word boundary, the literal
keyword, then a greedy nonempty whitespace run. -/
def kwMatch (kw : List Char) : Matcher := fun prev l =>
  if prev then none
  else if pfx kw l then
    let w := wsRun (l.drop kw.length)
    if w = 0 then none else some (kw.length + w)
  else none

/-- Does the text start with literal `class`, `interface` or `enum`
(the alternatives of the negative lookahead of rule 14)? -/
def startsCIE (l : List Char) : Bool :=
  pfx ("class".toList) l || pfx ("interface".toList) l || pfx ("enum".toList) l

/-- Pattern `\bpublic\s+SECOND\s+` (rules 3 to 5).  The greedy first
`\s+` cannot backtrack usefully: any shorter run leaves a whitespace
character where the literal `SECOND` must start. -/
def pubKw (second : List Char) : Matcher := fun prev l =>
  if prev then none
  else if pfx ("public".toList) l then
    let w1 := wsRun (l.drop 6)
    if w1 = 0 then none
    else
      let rest1 := l.drop (6 + w1)
      if pfx second rest1 then
        let w2 := wsRun (rest1.drop second.length)
        if w2 = 0 then none else some (6 + w1 + second.length + w2)
      else none
  else none

/-- Pattern `\bpublic\s+(?!class|interface|enum)` (rule 14).  Greedy
`\s+` with backtracking: for any shorter-than-maximal run the next
character is whitespace, so the lookahead succeeds; hence the match is
the full run when the lookahead passes there, one character less when it
fails and the run has length at least 2, and fails otherwise. -/
def pubOther : Matcher := fun prev l =>
  if prev then none
  else if pfx ("public".toList) l then
    let w := wsRun (l.drop 6)
    if w = 0 then none
    else if startsCIE (l.drop (6 + w)) then
      if 2 ≤ w then some (6 + w - 1) else none
    else some (6 + w)
  else none

/-- Literal one-or-more-character pattern (rules 9 to 11: escaped brace,
brace, semicolon). -/
def litMatch (s : List Char) : Matcher := fun _ l =>
  if pfx s l then some s.length else none

/-- Pattern `\n\x7b3,\x7d`: a greedy run of at least three newlines. -/
def collapseNl : Matcher := fun _ l =>
  let r := nlRun l
  if 3 ≤ r then some r else none

/-- Fuelled `re.sub` scan: at each position try the matcher; on a match
of length `n`, emit the replacement and resume after the matched span
(the word-boundary state is the last character of the span in the
original subject); otherwise copy one character.  `none` on fuel
exhaustion; one unit of fuel per subject character suffices. -/
def subF (m : Matcher) (r : List Char) : Nat → Bool → List Char → Option (List Char)
  | _, _, [] => some []
  | 0, _, _ :: _ => none
  | fuel + 1, prev, c :: cs =>
    match m prev (c :: cs) with
    | some n =>
      let k := max 1 n
      (subF m r fuel (isWordChar (((c :: cs).take k).getLastD c))
        ((c :: cs).drop k)).map (fun t => r ++ t)
    | none => (subF m r fuel (isWordChar c) cs).map (fun t => c :: t)

/-- Total `re.sub(pattern, repl, l)`, run with fuel `l.length`. -/
def pySub (m : Matcher) (r : List Char) (l : List Char) : List Char :=
  (subF m r l.length false l).getD l

/-- The sixteen ordered substitution rules of `reformat_java_file`,
each as (compiled pattern, replacement). -/
def rules : List (Matcher × List Char) :=
  [ (kwMatch ("package".toList), "\npackage ".toList),
    (kwMatch ("import".toList), "\nimport ".toList),
    (pubKw ("class".toList), "\n\npublic class ".toList),
    (pubKw ("interface".toList), "\n\npublic interface ".toList),
    (pubKw ("enum".toList), "\n\npublic enum ".toList),
    (kwMatch ("class".toList), "\nclass ".toList),
    (kwMatch ("interface".toList), "\ninterface ".toList),
    (kwMatch ("enum".toList), "\nenum ".toList),
    (litMatch ['\x7b'], " \x7b\n".toList),
    (litMatch ['\x7d'], "\n\x7d\n".toList),
    (litMatch [';'], ";\n".toList),
    (kwMatch ("private".toList), "\n    private ".toList),
    (kwMatch ("protected".toList), "\n    protected ".toList),
    (pubOther, "\n    public ".toList),
    (kwMatch ("static".toList), "static ".toList),
    (kwMatch ("final".toList), "final ".toList) ]

/-- Apply the sixteen rules in order, each over the cumulative text. -/
def applyRules (l : List Char) : List Char :=
  rules.foldl (fun s mr => pySub mr.1 mr.2 s) l

/-- Blank-line compactor: collapse runs of three or more newlines to two. -/
def collapse (l : List Char) : List Char := pySub collapseNl ("\n\n".toList) l

/-- Indentation pass: strip each line, drop blanks; a line whose first
character is a closing brace decrements the depth (clamped at 0) before
emission; a line whose last character is an opening brace increments it
after; emit with `4 * depth` spaces prefixed. -/
def indentGo : Int → List (List Char) → List (List Char)
  | _, [] => []
  | depth, l :: ls =>
    let s := pyStrip l
    if s.isEmpty then indentGo depth ls
    else
      let d1 : Int := if s.head? = some '\x7d' then max 0 (depth - 1) else depth
      (List.replicate (4 * d1.toNat) ' ' ++ s) ::
        indentGo (if s.getLast? = some '\x7b' then d1 + 1 else d1) ls

/-- Python `'\n'.join(lines)`. -/
def joinNl : List (List Char) → List Char
  | [] => []
  | [l] => l
  | l :: l' :: ls => l ++ '\n' :: joinNl (l' :: ls)

/-- The skip guard on the stripped content:
`'\n' in content and len(content.split('\n')) > 5`. -/
def guardB (content : List Char) : Bool :=
  content.contains '\n' && decide (5 < (pySplitNl content).length)

/-- The formatted-lines stage on the stripped content: flatten, rewrite,
compact, split and indent. -/
def formattedOf (content : List Char) : List (List Char) :=
  indentGo 0 (pySplitNl (collapse (applyRules (nlToSp content))))

/-- The rewritten document on the stripped content: formatted lines
joined with newlines plus one trailing newline. -/
def render (content : List Char) : List Char :=
  joinNl (formattedOf content) ++ ['\n']

/-- The reformat transform: `reformat text = (changed, output_text)`.
When the skip guard trips the source returns `False` and leaves the file
untouched, so the output text is the input; otherwise the source writes
the rendered text and returns `True`. -/
def reformat (text : List Char) : Bool × List Char :=
  if guardB (pyStrip text) = true then (false, text)
  else (true, render (pyStrip text))

/-- The transform with every substitution scan run on explicit fuel
(one unit per subject character): `none` would mean a scan ran out of
fuel, i.e. failed to terminate within its budget. -/
def reformatOpt (text : List Char) : Option (Bool × List Char) :=
  if guardB (pyStrip text) = true then some (false, text)
  else
    (rules.foldlM (fun s mr => subF mr.1 mr.2 s.length false s)
        (nlToSp (pyStrip text))).bind
      (fun c2 => (subF collapseNl ("\n\n".toList) c2.length false c2).map
        (fun c3 => (true, joinNl (indentGo 0 (pySplitNl c3)) ++ ['\n'])))

/-- Occurrence count of a character in a text. -/
def cnt (c : Char) : List Char → Nat
  | [] => 0
  | x :: xs => (if x = c then 1 else 0) + cnt c xs

/-- Does the text contain two consecutive newline characters? -/
def hasNlNl : List Char → Bool
  | a :: b :: rest => (a == '\n' && b == '\n') || hasNlNl (b :: rest)
  | _ => false

/-- Does the text contain three consecutive newline characters? -/
def hasNl3 : List Char → Bool
  | a :: b :: c :: rest =>
    (a == '\n' && b == '\n' && c == '\n') || hasNl3 (b :: c :: rest)
  | _ => false

/-- The clamped running (opens minus closes) count of all brace
characters of a text: an opening brace adds one, a closing brace
subtracts one clamped at zero. -/
def clampedBraces (l : List Char) : Int :=
  l.foldl
    (fun d c =>
      if c = '\x7b' then d + 1
      else if c = '\x7d' then max 0 (d - 1) else d) 0

/-- The depth transition the indentation engine performs for one
nonblank stripped line `s`: decrement (clamped at zero) when the first
character is a closing brace, then increment when the last character is
an opening brace. -/
def lineStep (d : Int) (s : List Char) : Int :=
  let d1 := if s.head? = some '\x7d' then max 0 (d - 1) else d
  if s.getLast? = some '\x7b' then d1 + 1 else d1

/-- The indentation depth reached after the engine has consumed a list
of lines starting from depth `d` (blank lines are skipped). -/
def depthAt (d : Int) (ls : List (List Char)) : Int :=
  ls.foldl (fun d l =>
    let s := pyStrip l
    if s.isEmpty then d else lineStep d s) d

/-- The scenario input of the specification, before padding. -/
def baseC2 : List Char :=
  "class Foo\x7bprivate int x;public Foo()\x7bx=0;\x7d\x7d".toList

/-- The scenario output: the six lines at depths 0,1,1,2,1,0 under a
four-space indent unit, joined by newlines plus one trailing newline. -/
def expectedC2 : List Char :=
  joinNl
    [ List.replicate (4 * 0) ' ' ++ "class Foo \x7b".toList,
      List.replicate (4 * 1) ' ' ++ "private int x;".toList,
      List.replicate (4 * 1) ' ' ++ "public Foo() \x7b".toList,
      List.replicate (4 * 2) ' ' ++ "x=0;".toList,
      List.replicate (4 * 1) ' ' ++ "\x7d".toList,
      List.replicate (4 * 0) ' ' ++ "\x7d".toList ] ++ ['\n']

theorem isSome_map_of (f : List Char → List Char) (o : Option (List Char))
    (h : o.isSome = true) : (o.map f).isSome = true := by
  cases o <;> simp_all

theorem subF_isSome (m : Matcher) (r : List Char) :
    ∀ fuel prev l, l.length ≤ fuel → (subF m r fuel prev l).isSome = true := by
  intro fuel
  induction fuel with
  | zero =>
    intro prev l h
    have hl : l = [] := List.eq_nil_of_length_eq_zero (Nat.le_zero.mp h)
    subst hl; simp [subF]
  | succ f ih =>
    intro prev l h
    match l with
    | [] => simp [subF]
    | c :: cs =>
      simp only [subF]
      cases hm : m prev (c :: cs) with
      | none =>
        have hcs : cs.length ≤ f := by
          simpa using Nat.le_of_succ_le_succ h
        exact isSome_map_of _ _ (ih (isWordChar c) cs hcs)
      | some n =>
        have hk : 1 ≤ max 1 n := le_max_left 1 n
        have hlen : ((c :: cs).drop (max 1 n)).length ≤ f := by
          rw [List.length_drop]
          simp only [List.length_cons]
          have : cs.length + 1 ≤ f + 1 := by simpa using h
          omega
        exact isSome_map_of _ _ (ih _ _ hlen)

theorem subF_eq_pySub (m : Matcher) (r l : List Char) :
    subF m r l.length false l = some (pySub m r l) := by
  rcases Option.isSome_iff_exists.mp
      (subF_isSome m r l.length false l (Nat.le_refl _)) with ⟨a, ha⟩
  simp [pySub, ha]

theorem foldlM_subF_eq (rs : List (Matcher × List Char)) :
    ∀ l, rs.foldlM (fun s mr => subF mr.1 mr.2 s.length false s) l =
      some (rs.foldl (fun s mr => pySub mr.1 mr.2 s) l) := by
  induction rs with
  | nil => intro l; rfl
  | cons mr rs ih =>
    intro l
    rw [List.foldlM_cons, subF_eq_pySub]
    exact ih _

/-- Claim C7: the transform is total.  Every substitution scan of the
pipeline, run with one unit of fuel per subject character, completes
within its budget on every input (so no stage diverges or fails), and
the fuelled pipeline agrees with the total transform. -/
theorem C7_total (t : List Char) : reformatOpt t = some (reformat t) := by
  unfold reformatOpt reformat
  cases hg : guardB (pyStrip t) with
  | true => simp
  | false =>
    simp only [Bool.false_eq_true, if_false]
    rw [foldlM_subF_eq]
    simp only [Option.some_bind]
    rw [subF_eq_pySub]
    simp [render, formattedOf, collapse, applyRules]

theorem dropWhile_append_all {p : Char → Bool} :
    ∀ (w l : List Char), (∀ c ∈ w, p c = true) →
      (w ++ l).dropWhile p = l.dropWhile p := by
  intro w
  induction w with
  | nil => intro l _; rfl
  | cons c w ih =>
    intro l h
    have hc : p c = true := h c (List.mem_cons_self c w)
    simp only [List.cons_append, List.dropWhile_cons, hc, if_true]
    exact ih l (fun x hx => h x (List.mem_cons_of_mem c hx))

theorem dropWhile_append_keep {p : Char → Bool} :
    ∀ (t w : List Char), t.dropWhile p ≠ [] →
      (t ++ w).dropWhile p = t.dropWhile p ++ w := by
  intro t
  induction t with
  | nil => intro w h; exact absurd rfl h
  | cons c t ih =>
    intro w h
    simp only [List.cons_append, List.dropWhile_cons]
    by_cases hc : p c = true
    · simp only [hc, if_true]
      simp only [List.dropWhile_cons, hc, if_true] at h
      exact ih w h
    · simp [hc]

theorem pyStrip_pre (w t : List Char) (h : ∀ c ∈ w, isPySpace c = true) :
    pyStrip (w ++ t) = pyStrip t := by
  simp [pyStrip, dropWhile_append_all w t h]

theorem pyStrip_post (t w : List Char) (h : ∀ c ∈ w, isPySpace c = true) :
    pyStrip (t ++ w) = pyStrip t := by
  by_cases hd : t.dropWhile isPySpace = []
  · have ht : ∀ c ∈ t, isPySpace c = true := by
      intro c hc
      exact List.dropWhile_eq_nil_iff.mp hd c hc
    have h1 : (t ++ w).dropWhile isPySpace = w.dropWhile isPySpace :=
      dropWhile_append_all t w ht
    have h2 : w.dropWhile isPySpace = [] := List.dropWhile_eq_nil_iff.mpr h
    simp [pyStrip, h1, h2, hd]
  · have h1 : (t ++ w).dropWhile isPySpace = t.dropWhile isPySpace ++ w :=
      dropWhile_append_keep t w hd
    have hrev : ∀ c ∈ w.reverse, isPySpace c = true := by
      intro c hc; exact h c (List.mem_reverse.mp hc)
    simp [pyStrip, h1, List.reverse_append, dropWhile_append_all _ _ hrev]

theorem pyStrip_pad (w1 t w2 : List Char)
    (h1 : ∀ c ∈ w1, isPySpace c = true) (h2 : ∀ c ∈ w2, isPySpace c = true) :
    pyStrip (w1 ++ t ++ w2) = pyStrip t := by
  rw [List.append_assoc, pyStrip_pre _ _ h1, pyStrip_post _ _ h2]

/-- Claim C1, counterexample: the input starting with a newline and
splitting into six lines (more than five) is nevertheless transformed
with `changed = true`, because the source strips the text before the
guard and the stripped text has only five lines. -/
theorem C1_counterexample :
    ("\na\nb\nc\nd\ne".toList).contains '\n' = true ∧
    5 < (pySplitNl ("\na\nb\nc\nd\ne".toList)).length ∧
    (reformat ("\na\nb\nc\nd\ne".toList)).fst = true := by decide

/-- Claim C1 as amended: the guard is judged on the input stripped of
leading and trailing whitespace.  If the stripped text contains a
newline and splits into more than five lines, the transform returns
`changed = false` with the input unchanged; otherwise it returns
`changed = true`. -/
theorem C1_amended (t : List Char) :
    ((pyStrip t).contains '\n' = true ∧ 5 < (pySplitNl (pyStrip t)).length →
      reformat t = (false, t)) ∧
    (¬((pyStrip t).contains '\n' = true ∧ 5 < (pySplitNl (pyStrip t)).length) →
      (reformat t).fst = true) := by
  constructor
  · intro h
    have hg : guardB (pyStrip t) = true := by
      simp only [guardB, h.1, Bool.true_and, decide_eq_true_eq]
      exact h.2
    simp [reformat, hg]
  · intro h
    cases hg : guardB (pyStrip t) with
    | false => simp [reformat, hg]
    | true =>
      exfalso
      apply h
      simpa [guardB] using hg

theorem C1_witness :
    reformat ("0\n1\n2\n3\n4\n5".toList) = (false, "0\n1\n2\n3\n4\n5".toList) :=
  (C1_amended ("0\n1\n2\n3\n4\n5".toList)).1 (by decide)

/-- Claim C9: an input consisting only of whitespace characters
(including the empty input) is transformed with `changed = true` and the
output is a single newline character. -/
theorem C9_whitespace (t : List Char) (h : ∀ c ∈ t, isPySpace c = true) :
    reformat t = (true, ['\n']) := by
  have hs : pyStrip t = [] := by
    have h1 : t.dropWhile isPySpace = [] := List.dropWhile_eq_nil_iff.mpr h
    simp [pyStrip, h1]
  unfold reformat
  rw [hs, if_neg (by decide)]
  decide

theorem C9_witness : reformat ("  \t ".toList) = (true, ['\n']) :=
  C9_whitespace ("  \t ".toList) (by decide)

/-- Claim C10: the transform depends only on the input stripped of
leading and trailing whitespace.  Padding the input with whitespace on
either side leaves the changed flag unchanged, and when that flag is
true the output text is identical. -/
theorem C10_strip_invariant (t w1 w2 : List Char)
    (h1 : ∀ c ∈ w1, isPySpace c = true) (h2 : ∀ c ∈ w2, isPySpace c = true) :
    (reformat (w1 ++ t ++ w2)).fst = (reformat t).fst ∧
    ((reformat t).fst = true →
      (reformat (w1 ++ t ++ w2)).snd = (reformat t).snd) := by
  have hs : pyStrip (w1 ++ t ++ w2) = pyStrip t := pyStrip_pad w1 t w2 h1 h2
  unfold reformat
  rw [hs]
  cases hg : guardB (pyStrip t) <;> simp

theorem C10_witness :
    (reformat ("  ".toList ++ "a;b".toList ++ "\t".toList)).fst =
      (reformat ("a;b".toList)).fst ∧
    ((reformat ("a;b".toList)).fst = true →
      (reformat ("  ".toList ++ "a;b".toList ++ "\t".toList)).snd =
        (reformat ("a;b".toList)).snd) :=
  C10_strip_invariant ("a;b".toList) ("  ".toList) ("\t".toList)
    (by decide) (by decide)

/-- Claim C2: the scenario input `class Foo\x7b...\x7d\x7d`, padded with
whitespace to any length (in particular beyond 200 characters while
keeping at most 3 physical lines), is transformed with `changed = true`
into exactly the six lines `class Foo \x7b`, `private int x;`,
`public Foo() \x7b`, `x=0;`, `\x7d`, `\x7d` at depths 0,1,1,2,1,0 with a
four-space indent unit, joined by newlines plus one trailing newline. -/
theorem C2_scenario (w1 w2 : List Char)
    (h1 : ∀ c ∈ w1, isPySpace c = true) (h2 : ∀ c ∈ w2, isPySpace c = true)
    (_hlen : 200 < (w1 ++ baseC2 ++ w2).length)
    (_hlines : (pySplitNl (w1 ++ baseC2 ++ w2)).length ≤ 3) :
    reformat (w1 ++ baseC2 ++ w2) = (true, expectedC2) := by
  unfold reformat
  rw [pyStrip_pad w1 baseC2 w2 h1 h2, if_neg (by decide)]
  decide

theorem cnt_append (c : Char) : ∀ l r : List Char, cnt c (l ++ r) = cnt c l + cnt c r := by
  intro l r
  induction l with
  | nil => simp [cnt]
  | cons x xs ih => simp [cnt, ih]; omega

theorem cnt_reverse (c : Char) : ∀ l : List Char, cnt c l.reverse = cnt c l := by
  intro l
  induction l with
  | nil => rfl
  | cons x xs ih => simp [cnt, List.reverse_cons, cnt_append, ih]; omega

theorem cnt_eq_zero {c : Char} {l : List Char} (h : ∀ x ∈ l, x ≠ c) : cnt c l = 0 := by
  induction l with
  | nil => rfl
  | cons x xs ih =>
    have hx : x ≠ c := h x (List.mem_cons_self x xs)
    simp [cnt, hx]
    exact ih (fun y hy => h y (List.mem_cons_of_mem x hy))

theorem pfx_take : ∀ p l : List Char, pfx p l = true → l.take p.length = p := by
  intro p
  induction p with
  | nil => intro l _; rfl
  | cons x xs ih =>
    intro l h
    cases l with
    | nil => simp [pfx] at h
    | cons y ys =>
      simp only [pfx, Bool.and_eq_true, beq_iff_eq] at h
      simp [List.take_cons, h.1.symm, ih ys h.2]

theorem runLen_take : ∀ (p : Char → Bool) (l : List Char),
    l.take (runLen p l) = l.takeWhile p := by
  intro p l
  induction l with
  | nil => rfl
  | cons x xs ih =>
    by_cases hx : p x = true
    · simp [runLen, hx, List.takeWhile_cons, List.take_cons, ih]
    · simp [runLen, hx, List.takeWhile_cons]

theorem mem_take_of_le_runLen (p : Char → Bool) :
    ∀ (l : List Char) (k : Nat), k ≤ runLen p l → ∀ x ∈ l.take k, p x = true := by
  intro l
  induction l with
  | nil => intro k _ x hx; simp at hx
  | cons y ys ih =>
    intro k hk x hx
    by_cases hy : p y = true
    · simp only [runLen, hy, if_true] at hk
      cases k with
      | zero => simp at hx
      | succ k' =>
        simp only [List.take_succ_cons] at hx
        rcases List.mem_cons.mp hx with h | h
        · rw [h]; exact hy
        · exact ih k' (Nat.le_of_succ_le_succ hk) x h
    · simp only [runLen, hy, if_false] at hk
      have : k = 0 := Nat.le_zero.mp hk
      subst this; simp at hx

theorem cnt_dropWhile {c : Char} {p : Char → Bool} (hp : ∀ x, p x = true → x ≠ c) :
    ∀ l : List Char, cnt c (l.dropWhile p) = cnt c l := by
  intro l
  conv_rhs => rw [← List.takeWhile_append_dropWhile p l]
  rw [cnt_append]
  have h0 : cnt c (l.takeWhile p) = 0 :=
    cnt_eq_zero (fun x hx => hp x (List.mem_takeWhile_imp hx))
  omega

theorem cnt_pyStrip {c : Char} (hsp : isPySpace c = false) (l : List Char) :
    cnt c (pyStrip l) = cnt c l := by
  have hp : ∀ x, isPySpace x = true → x ≠ c := by
    intro x hx he
    rw [he, hsp] at hx
    cases hx
  unfold pyStrip
  rw [cnt_reverse, cnt_dropWhile hp, cnt_reverse, cnt_dropWhile hp]

theorem cnt_map_eqpres {c : Char} {g : Char → Char}
    (hg : ∀ x, g x = c ↔ x = c) : ∀ l : List Char, cnt c (l.map g) = cnt c l := by
  intro l
  induction l with
  | nil => rfl
  | cons x xs ih =>
    simp only [List.map_cons, cnt, ih]
    by_cases hx : x = c
    · rw [if_pos ((hg x).mpr hx), if_pos hx]
    · rw [if_neg (fun hh => hx ((hg x).mp hh)), if_neg hx]

theorem cnt_nlToSp {c : Char} (hnl : c ≠ '\n') (hspc : c ≠ ' ') (l : List Char) :
    cnt c (nlToSp l) = cnt c l := by
  unfold nlToSp
  apply cnt_map_eqpres
  intro x
  by_cases hx : x = '\n'
  · subst hx
    simp only [beq_self_eq_true, if_true]
    constructor
    · intro h; exact absurd h.symm hspc
    · intro h; exact absurd h.symm hnl
  · have hb : (x == '\n') = false := by simp [hx]
    simp [hb]

/-- A substitution rule is count-preserving for character `c` when every
matched span contains exactly as many `c` as the replacement does. -/
def SpanOK (m : Matcher) (r : List Char) (c : Char) : Prop :=
  ∀ prev l n, m prev l = some n → cnt c (l.take (max 1 n)) = cnt c r

theorem subF_cnt {m : Matcher} {r : List Char} {c : Char} (hok : SpanOK m r c) :
    ∀ fuel prev l out, subF m r fuel prev l = some out → cnt c out = cnt c l := by
  intro fuel
  induction fuel with
  | zero =>
    intro prev l out h
    cases l with
    | nil => cases h; rfl
    | cons x xs => cases h
  | succ f ih =>
    intro prev l out h
    cases l with
    | nil => cases h; rfl
    | cons x xs =>
      simp only [subF] at h
      cases hm : m prev (x :: xs) with
      | none =>
        rw [hm] at h
        rcases Option.map_eq_some'.mp h with ⟨o, ho, rfl⟩
        simp only [cnt]
        rw [ih _ _ _ ho]
      | some n =>
        rw [hm] at h
        rcases Option.map_eq_some'.mp h with ⟨o, ho, rfl⟩
        rw [cnt_append, ih _ _ _ ho, ← hok prev (x :: xs) n hm]
        rw [← cnt_append, List.take_append_drop]

theorem pySub_cnt {m : Matcher} {r : List Char} {c : Char} (hok : SpanOK m r c)
    (l : List Char) : cnt c (pySub m r l) = cnt c l :=
  subF_cnt hok l.length false l (pySub m r l) (subF_eq_pySub m r l)

theorem cnt_take_le_wsRun {c : Char} (hsp : isPySpace c = false)
    (x : List Char) (k : Nat) (hk : k ≤ wsRun x) : cnt c (x.take k) = 0 := by
  apply cnt_eq_zero
  intro y hy he
  have hmem : isPySpace y = true := mem_take_of_le_runLen isPySpace x k hk y hy
  rw [he, hsp] at hmem
  cases hmem

theorem spanOK_kwMatch {kw r : List Char} {c : Char} (hkw : cnt c kw = 0)
    (hr : cnt c r = 0) (hsp : isPySpace c = false) : SpanOK (kwMatch kw) r c := by
  intro prev l n hm
  cases prev with
  | true => simp [kwMatch] at hm
  | false =>
    simp [kwMatch] at hm
    obtain ⟨hpfx, hw, hn⟩ := hm
    have hmax : max 1 n = n := by omega
    rw [hmax, ← hn, List.take_add, cnt_append, pfx_take kw l hpfx, hkw, hr]
    have h0 : cnt c (List.take (wsRun (List.drop kw.length l))
        (List.drop kw.length l)) = 0 :=
      cnt_take_le_wsRun hsp _ _ (Nat.le_refl _)
    omega

theorem spanOK_pubKw {second r : List Char} {c : Char}
    (hpub : cnt c ['p', 'u', 'b', 'l', 'i', 'c'] = 0) (hsec : cnt c second = 0)
    (hr : cnt c r = 0) (hsp : isPySpace c = false) : SpanOK (pubKw second) r c := by
  intro prev l n hm
  cases prev with
  | true => simp [pubKw] at hm
  | false =>
    simp [pubKw] at hm
    obtain ⟨h1, h2, h3, h4, h5⟩ := hm
    have hmax : max 1 n = n := by omega
    have e2 : List.take 6 l = ['p', 'u', 'b', 'l', 'i', 'c'] := by
      simpa using pfx_take _ l h1
    rw [hmax, ← h5,
      show 6 + wsRun (List.drop 6 l) + second.length +
          wsRun (List.drop (6 + wsRun (List.drop 6 l) + second.length) l) =
        (6 + wsRun (List.drop 6 l)) +
          (second.length +
            wsRun (List.drop (6 + wsRun (List.drop 6 l) + second.length) l))
        from by omega,
      List.take_add, cnt_append, List.take_add, cnt_append, e2, hpub,
      List.take_add, cnt_append, pfx_take second _ h3, hsec,
      List.drop_drop, hr]
    have z1 : cnt c (List.take (wsRun (List.drop 6 l)) (List.drop 6 l)) = 0 :=
      cnt_take_le_wsRun hsp _ _ (Nat.le_refl _)
    have z2 : cnt c
        (List.take (wsRun (List.drop (6 + wsRun (List.drop 6 l) + second.length) l))
          (List.drop (6 + wsRun (List.drop 6 l) + second.length) l)) = 0 :=
      cnt_take_le_wsRun hsp _ _ (Nat.le_refl _)
    omega

theorem spanOK_pubOther {r : List Char} {c : Char}
    (hpub : cnt c ['p', 'u', 'b', 'l', 'i', 'c'] = 0) (hr : cnt c r = 0)
    (hsp : isPySpace c = false) : SpanOK pubOther r c := by
  intro prev l n hm
  cases prev with
  | true => simp [pubOther] at hm
  | false =>
    simp [pubOther] at hm
    obtain ⟨h1, h2, h3⟩ := hm
    have e2 : List.take 6 l = ['p', 'u', 'b', 'l', 'i', 'c'] := by
      simpa using pfx_take _ l h1
    by_cases hcie : startsCIE (List.drop (6 + wsRun (List.drop 6 l)) l) = true
    · rw [if_pos hcie] at h3
      by_cases h2w : 2 ≤ wsRun (List.drop 6 l)
      · rw [if_pos h2w] at h3
        have hn : 5 + wsRun (List.drop 6 l) = n := Option.some_inj.mp h3
        have hmax : max 1 n = n := by omega
        rw [hmax, ← hn,
          show 5 + wsRun (List.drop 6 l) = 6 + (wsRun (List.drop 6 l) - 1)
            from by omega,
          List.take_add, cnt_append, e2, hpub, hr]
        have z1 : cnt c (List.take (wsRun (List.drop 6 l) - 1) (List.drop 6 l)) = 0 :=
          cnt_take_le_wsRun hsp _ _ (by omega)
        omega
      · rw [if_neg h2w] at h3
        exact Option.noConfusion h3
    · rw [if_neg hcie] at h3
      have hn : 6 + wsRun (List.drop 6 l) = n := Option.some_inj.mp h3
      have hmax : max 1 n = n := by omega
      rw [hmax, ← hn, List.take_add, cnt_append, e2, hpub, hr]
      have z1 : cnt c (List.take (wsRun (List.drop 6 l)) (List.drop 6 l)) = 0 :=
        cnt_take_le_wsRun hsp _ _ (Nat.le_refl _)
      omega

theorem spanOK_lit {s r : List Char} {c : Char} (hs : cnt c s = cnt c r)
    (hne : s ≠ []) : SpanOK (litMatch s) r c := by
  intro prev l n hm
  by_cases hp : pfx s l = true
  · simp only [litMatch, hp, if_true] at hm
    have hn : n = s.length := (Option.some_inj.mp hm).symm
    have hlen : 1 ≤ s.length := by
      cases s with
      | nil => exact absurd rfl hne
      | cons a as => simp
    have hmax : max 1 n = n := by omega
    rw [hmax, hn, pfx_take s l hp, hs]
  · simp [litMatch, hp] at hm

theorem spanOK_collapse {c : Char} (hnl : c ≠ '\n') :
    SpanOK collapseNl ("\n\n".toList) c := by
  intro prev l n hm
  by_cases h3 : 3 ≤ nlRun l
  · simp only [collapseNl, h3, if_true] at hm
    have hn : n = nlRun l := (Option.some_inj.mp hm).symm
    have hmax : max 1 n = n := by omega
    rw [hmax, hn, show nlRun l = runLen (fun c => c == '\n') l from rfl,
      runLen_take]
    have h0 : cnt c (l.takeWhile (fun c => c == '\n')) = 0 := by
      apply cnt_eq_zero
      intro x hx he
      have := List.mem_takeWhile_imp hx
      rw [he] at this
      simp at this
      exact hnl this
    rw [h0]
    simp [cnt, Ne.symm hnl]
  · simp [collapseNl, h3] at hm

theorem applyRules_cnt (l : List Char) (c : Char)
    (hc : c = '\x7b' ∨ c = '\x7d') : cnt c (applyRules l) = cnt c l := by
  rcases hc with h | h <;> subst h <;>
    (unfold applyRules rules
     simp only [List.foldl_cons, List.foldl_nil]
     rw [pySub_cnt (spanOK_kwMatch (by decide) (by decide) (by decide)),
       pySub_cnt (spanOK_kwMatch (by decide) (by decide) (by decide)),
       pySub_cnt (spanOK_pubOther (by decide) (by decide) (by decide)),
       pySub_cnt (spanOK_kwMatch (by decide) (by decide) (by decide)),
       pySub_cnt (spanOK_kwMatch (by decide) (by decide) (by decide)),
       pySub_cnt (spanOK_lit (by decide) (by decide)),
       pySub_cnt (spanOK_lit (by decide) (by decide)),
       pySub_cnt (spanOK_lit (by decide) (by decide)),
       pySub_cnt (spanOK_kwMatch (by decide) (by decide) (by decide)),
       pySub_cnt (spanOK_kwMatch (by decide) (by decide) (by decide)),
       pySub_cnt (spanOK_kwMatch (by decide) (by decide) (by decide)),
       pySub_cnt (spanOK_pubKw (by decide) (by decide) (by decide) (by decide)),
       pySub_cnt (spanOK_pubKw (by decide) (by decide) (by decide) (by decide)),
       pySub_cnt (spanOK_pubKw (by decide) (by decide) (by decide) (by decide)),
       pySub_cnt (spanOK_kwMatch (by decide) (by decide) (by decide)),
       pySub_cnt (spanOK_kwMatch (by decide) (by decide) (by decide))])

theorem pySplitNl_ne_nil : ∀ l : List Char, pySplitNl l ≠ [] := by
  intro l
  induction l with
  | nil => simp [pySplitNl]
  | cons c cs ih =>
    by_cases hc : c == '\n'
    · simp [pySplitNl, hc]
    · simp only [pySplitNl, hc, if_false]
      cases e : pySplitNl cs with
      | nil => exact absurd e ih
      | cons p ps => simp

theorem cnt_pySplitNl {c : Char} (hnl : c ≠ '\n') :
    ∀ l : List Char, ((pySplitNl l).map (cnt c)).sum = cnt c l := by
  intro l
  induction l with
  | nil => simp [pySplitNl, cnt]
  | cons x xs ih =>
    by_cases hx : x == '\n'
    · have hx' : x = '\n' := by simpa using hx
      simp only [pySplitNl, hx, if_true, List.map_cons, List.sum_cons, ih]
      simp [cnt, hx', Ne.symm hnl]
    · have hb : (x == '\n') = false := by
        cases hbe : x == '\n'
        · rfl
        · exact absurd hbe hx
      simp only [pySplitNl, hb, Bool.false_eq_true, if_false]
      cases e : pySplitNl xs with
      | nil => exact absurd e (pySplitNl_ne_nil xs)
      | cons p ps =>
        rw [e] at ih
        simp only [List.map_cons, List.sum_cons] at ih ⊢
        simp only [cnt]
        omega

theorem pyStrip_eq_nil_all_space {l : List Char} (h : pyStrip l = []) :
    ∀ x ∈ l, isPySpace x = true := by
  unfold pyStrip at h
  rw [List.reverse_eq_nil_iff] at h
  have h2 : ∀ x ∈ (l.dropWhile isPySpace).reverse, isPySpace x = true :=
    List.dropWhile_eq_nil_iff.mp h
  have h3 : ∀ x ∈ l.dropWhile isPySpace, isPySpace x = true := by
    intro x hx
    exact h2 x (List.mem_reverse.mpr hx)
  intro x hx
  rw [← List.takeWhile_append_dropWhile isPySpace l] at hx
  rcases List.mem_append.mp hx with h4 | h4
  · exact List.mem_takeWhile_imp h4
  · exact h3 x h4

theorem cnt_indentGo_sum {c : Char} (hsp : isPySpace c = false) :
    ∀ (ls : List (List Char)) (d : Int),
      ((indentGo d ls).map (cnt c)).sum = (ls.map (cnt c)).sum := by
  have hne : ∀ x, isPySpace x = true → x ≠ c := by
    intro x hx he
    rw [he, hsp] at hx
    cases hx
  have hspc : (' ' : Char) ≠ c := hne ' ' (by decide)
  intro ls
  induction ls with
  | nil => intro d; rfl
  | cons l ls ih =>
    intro d
    by_cases he : (pyStrip l).isEmpty = true
    · have hnil : pyStrip l = [] := by
        cases e : pyStrip l with
        | nil => rfl
        | cons a as => rw [e] at he; simp at he
      have hz : cnt c l = 0 :=
        cnt_eq_zero (fun x hx => hne x (pyStrip_eq_nil_all_space hnil x hx))
      simp only [indentGo, he, if_true, List.map_cons, List.sum_cons, ih, hz]
      omega
    · have hz : ∀ k : Nat, cnt c (List.replicate k ' ') = 0 := by
        intro k
        apply cnt_eq_zero
        intro x hx
        have := (List.mem_replicate.mp hx).2
        rw [this]
        exact hspc
      have hb : (pyStrip l).isEmpty = false := by simpa using he
      simp only [indentGo, hb, Bool.false_eq_true, if_false, List.map_cons,
        List.sum_cons, ih, cnt_append]
      rw [hz, cnt_pyStrip hsp]
      omega

theorem cnt_joinNl {c : Char} (hnl : c ≠ '\n') :
    ∀ L : List (List Char), cnt c (joinNl L) = (L.map (cnt c)).sum := by
  intro L
  induction L with
  | nil => rfl
  | cons l L ih =>
    cases L with
    | nil => simp [joinNl, cnt]
    | cons l' ls =>
      simp only [joinNl, List.map_cons, List.sum_cons] at ih ⊢
      rw [cnt_append]
      simp only [cnt, Ne.symm hnl, if_false, Nat.zero_add]
      omega

/-- Claim C3: for every input, the output of the transform contains
exactly as many opening braces as the input, and exactly as many closing
braces: the pipeline only moves, inserts and deletes whitespace and
newline characters. -/
theorem C3_brace_conservation (t : List Char) :
    cnt '\x7b' (reformat t).snd = cnt '\x7b' t ∧
    cnt '\x7d' (reformat t).snd = cnt '\x7d' t := by
  have main : ∀ c : Char, c = '\x7b' ∨ c = '\x7d' →
      cnt c (reformat t).snd = cnt c t := by
    intro c hc
    have hsp : isPySpace c = false := by rcases hc with h | h <;> rw [h] <;> decide
    have hnl : c ≠ '\n' := by rcases hc with h | h <;> rw [h] <;> decide
    have hspc : c ≠ ' ' := by rcases hc with h | h <;> rw [h] <;> decide
    unfold reformat
    cases hg : guardB (pyStrip t) with
    | true => simp
    | false =>
      simp only [Bool.false_eq_true, if_false]
      show cnt c (render (pyStrip t)) = cnt c t
      unfold render formattedOf collapse
      rw [cnt_append, cnt_joinNl hnl, cnt_indentGo_sum hsp,
        cnt_pySplitNl hnl, pySub_cnt (spanOK_collapse hnl),
        applyRules_cnt _ _ hc, cnt_nlToSp hnl hspc, cnt_pyStrip hsp]
      simp [cnt, Ne.symm hnl]
  exact ⟨main _ (Or.inl rfl), main _ (Or.inr rfl)⟩

theorem depthAt_cons (d : Int) (l : List Char) (ls : List (List Char)) :
    depthAt d (l :: ls) =
      depthAt (if (pyStrip l).isEmpty then d else lineStep d (pyStrip l)) ls := by
  rfl

theorem depthAt_nonneg : ∀ (ls : List (List Char)) (d : Int), 0 ≤ d →
    0 ≤ depthAt d ls := by
  intro ls
  induction ls with
  | nil => intro d h; exact h
  | cons l ls ih =>
    intro d h
    rw [depthAt_cons]
    apply ih
    by_cases he : (pyStrip l).isEmpty = true
    · simpa [he] using h
    · have hb : (pyStrip l).isEmpty = false := by simpa using he
      simp only [hb, Bool.false_eq_true, if_false, lineStep]
      by_cases h1 : (pyStrip l).head? = some '\x7d' <;>
        by_cases h2 : (pyStrip l).getLast? = some '\x7b' <;>
          simp [h1, h2] <;> omega

theorem indentGo_append : ∀ (pre post : List (List Char)) (d : Int),
    indentGo d (pre ++ post) = indentGo d pre ++ indentGo (depthAt d pre) post := by
  intro pre
  induction pre with
  | nil => intro post d; rfl
  | cons l pre ih =>
    intro post d
    by_cases he : (pyStrip l).isEmpty = true
    · simp only [List.cons_append, indentGo, he, if_true, depthAt_cons]
      exact ih post d
    · have hb : (pyStrip l).isEmpty = false := by simpa using he
      simp only [List.cons_append, indentGo, hb, Bool.false_eq_true, if_false,
        depthAt_cons]
      rw [show (if (pyStrip l).getLast? = some '\x7b'
            then (if (pyStrip l).head? = some '\x7d' then max 0 (d - 1) else d) + 1
            else if (pyStrip l).head? = some '\x7d' then max 0 (d - 1) else d) =
          lineStep d (pyStrip l) from rfl]
      exact congrArg (List.cons _) (ih post (lineStep d (pyStrip l)))

/-- Claim C5, counterexample: on input `a\x7bstatic\x7db\x7b` the
`static` rule swallows the newline inserted before the closing brace, so
the second emitted line is `static \x7d`.  The third emitted line
`    b \x7b` is non-closing and is emitted at depth 1 (one four-space
unit), but the clamped running (opens minus closes) count of all brace
characters preceding it in the output is 0, not 1. -/
theorem C5_counterexample :
    (reformat ("a\x7bstatic\x7db\x7b".toList)).snd =
      "a \x7b\n    static \x7d\n    b \x7b\n".toList ∧
    clampedBraces ("a \x7b\n    static \x7d\n".toList) = 0 ∧
    ("    b \x7b".toList).take 4 = List.replicate 4 ' ' ∧
    ("    b \x7b".toList).head? ≠ some '\x7d' ∧
    (1 : Int) ≠ clampedBraces ("a \x7b\n    static \x7d\n".toList) := by
  refine ⟨by decide, by decide, by decide, by decide, by decide⟩

/-- Claim C5 as amended: in the indentation pass, depth starts at 0 and
never becomes negative; a line whose stripped form begins with a closing
brace decrements the depth (clamped at zero) before emission and a line
whose stripped form ends with an opening brace increments it after
emission; and every non-closing emitted line is emitted at the clamped
running depth obtained by folding exactly those per-line steps over the
preceding lines (lines whose brace is not in first or last position,
such as `static \x7d`, do not count). -/
theorem C5_amended :
    (∀ (ls : List (List Char)) (d : Int), 0 ≤ d → 0 ≤ depthAt d ls) ∧
    (∀ (d : Int) (pre : List (List Char)) (l : List Char)
        (post : List (List Char)),
      pyStrip l ≠ [] → (pyStrip l).head? ≠ some '\x7d' →
      indentGo d (pre ++ l :: post) =
        indentGo d pre ++
          (List.replicate (4 * (depthAt d pre).toNat) ' ' ++ pyStrip l) ::
            indentGo (if (pyStrip l).getLast? = some '\x7b'
              then depthAt d pre + 1 else depthAt d pre) post) := by
  constructor
  · exact depthAt_nonneg
  · intro d pre l post hne hnc
    rw [indentGo_append]
    have hb : (pyStrip l).isEmpty = false := by
      cases e : pyStrip l with
      | nil => exact absurd e hne
      | cons a as => rfl
    simp only [indentGo, hb, Bool.false_eq_true, if_false, hnc,
      List.append_cancel_left_eq]

theorem C5_witness :
    (0 : Int) ≤ depthAt 0 [("a \x7b".toList)] ∧
    indentGo 0 ([("a \x7b".toList)] ++ ("b".toList) :: []) =
      indentGo 0 [("a \x7b".toList)] ++
        (List.replicate (4 * (depthAt 0 [("a \x7b".toList)]).toNat) ' ' ++
            pyStrip ("b".toList)) ::
          indentGo (if (pyStrip ("b".toList)).getLast? = some '\x7b'
            then depthAt 0 [("a \x7b".toList)] + 1
            else depthAt 0 [("a \x7b".toList)]) [] :=
  ⟨C5_amended.1 [("a \x7b".toList)] 0 (by decide),
   C5_amended.2 0 [("a \x7b".toList)] ("b".toList) [] (by decide) (by decide)⟩

theorem hasNlNl_of_hasNl3 : ∀ l : List Char, hasNl3 l = true → hasNlNl l = true := by
  intro l
  induction l with
  | nil => intro h; cases h
  | cons a l ih =>
    intro h
    cases l with
    | nil => cases h
    | cons b l' =>
      cases l' with
      | nil => cases h
      | cons d l'' =>
        rw [show hasNl3 (a :: b :: d :: l'') =
            ((a == '\n' && b == '\n' && d == '\n') || hasNl3 (b :: d :: l''))
          from rfl] at h
        rw [show hasNlNl (a :: b :: d :: l'') =
            ((a == '\n' && b == '\n') || hasNlNl (b :: d :: l'')) from rfl]
        cases hor : (a == '\n' && b == '\n') with
        | true => rfl
        | false =>
          have h1 : hasNl3 (b :: d :: l'') = true := by
            rw [hor] at h
            simpa using h
          rw [ih h1]
          rfl

theorem hasNlNl_append_nlfree : ∀ (l r : List Char),
    (∀ x ∈ l, x ≠ '\n') → hasNlNl (l ++ r) = hasNlNl r := by
  intro l
  induction l with
  | nil => intro r _; rfl
  | cons c l' ih =>
    intro r h
    have hc : c ≠ '\n' := h c (List.mem_cons_self c l')
    have hrest : ∀ x ∈ l', x ≠ '\n' := fun x hx => h x (List.mem_cons_of_mem c hx)
    rw [List.cons_append]
    cases e : l' ++ r with
    | nil =>
      rcases List.append_eq_nil.mp e with ⟨he1, he2⟩
      subst he1
      rw [he2] at e ⊢
      simp [hasNlNl]
    | cons y ys =>
      have hb : (c == '\n') = false := by simp [hc]
      simp only [hasNlNl, e, hb, Bool.false_and, Bool.false_or]
      rw [← e]
      exact ih r hrest

theorem joinNl_cons_cons (l l' : List Char) (ls : List (List Char)) :
    joinNl (l :: l' :: ls) = l ++ '\n' :: joinNl (l' :: ls) := rfl

theorem hasNlNl_joinNl : ∀ L : List (List Char),
    (∀ l ∈ L, l ≠ [] ∧ ∀ x ∈ l, x ≠ '\n') →
    hasNlNl (joinNl L ++ ['\n']) = false := by
  intro L
  induction L with
  | nil => intro _; rfl
  | cons l L ih =>
    intro h
    have hl := h l (List.mem_cons_self l L)
    cases L with
    | nil =>
      show hasNlNl (l ++ ['\n']) = false
      rw [hasNlNl_append_nlfree l ['\n'] hl.2]
      rfl
    | cons l' ls =>
      have hL : ∀ g ∈ l' :: ls, g ≠ [] ∧ ∀ x ∈ g, x ≠ '\n' :=
        fun g hg => h g (List.mem_cons_of_mem l hg)
      have hl' := hL l' (List.mem_cons_self l' ls)
      rw [joinNl_cons_cons, List.append_assoc,
        hasNlNl_append_nlfree l _ hl.2]
      obtain ⟨y, ys, e⟩ := List.exists_cons_of_ne_nil hl'.1
      have hy : y ≠ '\n' := hl'.2 y (by rw [e]; exact List.mem_cons_self y ys)
      have hjoin : ∃ zs, joinNl (l' :: ls) ++ ['\n'] = y :: zs := by
        cases ls with
        | nil =>
          refine ⟨ys ++ ['\n'], ?_⟩
          rw [show joinNl [l'] = l' from rfl, e]
          simp
        | cons g gs =>
          refine ⟨ys ++ '\n' :: joinNl (g :: gs) ++ ['\n'], ?_⟩
          rw [joinNl_cons_cons, e]
          simp
      rcases hjoin with ⟨zs, hzs⟩
      rw [List.cons_append, hzs]
      have hyb : (y == '\n') = false := by simp [hy]
      rw [show hasNlNl ('\n' :: y :: zs) =
          (('\n' == '\n' && y == '\n') || hasNlNl (y :: zs)) from rfl,
        hyb]
      simp only [Bool.and_false, Bool.false_or]
      rw [← hzs]
      exact ih hL

theorem mem_pyStrip {x : Char} {l : List Char} (h : x ∈ pyStrip l) : x ∈ l := by
  unfold pyStrip at h
  rw [List.mem_reverse] at h
  have h1 := (List.dropWhile_sublist isPySpace
    (l := (l.dropWhile isPySpace).reverse)).mem h
  rw [List.mem_reverse] at h1
  exact (List.dropWhile_sublist isPySpace (l := l)).mem h1

theorem pySplitNl_nlfree : ∀ (l : List Char) (p : List Char),
    p ∈ pySplitNl l → ∀ x ∈ p, x ≠ '\n' := by
  intro l
  induction l with
  | nil =>
    intro p hp x hx
    simp only [pySplitNl, List.mem_singleton] at hp
    subst hp
    cases hx
  | cons c cs ih =>
    intro p hp x hx
    by_cases hc : (c == '\n') = true
    · simp only [pySplitNl, hc, if_true] at hp
      rcases List.mem_cons.mp hp with h | h
      · subst h; cases hx
      · exact ih p h x hx
    · have hb : (c == '\n') = false := by
        cases hbe : c == '\n'
        · rfl
        · exact absurd hbe hc
      simp only [pySplitNl, hb, Bool.false_eq_true, if_false] at hp
      cases e : pySplitNl cs with
      | nil => exact absurd e (pySplitNl_ne_nil cs)
      | cons q qs =>
        rw [e] at hp
        rcases List.mem_cons.mp hp with h | h
        · subst h
          rcases List.mem_cons.mp hx with h2 | h2
          · subst h2
            intro he
            rw [he] at hb
            simp at hb
          · exact ih q (by rw [e]; exact List.mem_cons_self q qs) x h2
        · exact ih p (by rw [e]; exact List.mem_cons_of_mem q h) x hx

theorem formattedOf_lines (content : List Char) :
    ∀ g ∈ formattedOf content, g ≠ [] ∧ ∀ x ∈ g, x ≠ '\n' := by
  unfold formattedOf
  generalize hls : pySplitNl (collapse (applyRules (nlToSp content))) = ls
  have hlines : ∀ p ∈ ls, ∀ x ∈ p, x ≠ '\n' := by
    intro p hp
    rw [← hls] at hp
    exact pySplitNl_nlfree _ p hp
  clear hls
  suffices h : ∀ (d : Int) (g : List Char), g ∈ indentGo d ls →
      g ≠ [] ∧ ∀ x ∈ g, x ≠ '\n' by
    intro g hg
    exact h 0 g hg
  induction ls with
  | nil => intro d g hg; cases hg
  | cons l ls ih =>
    have hl : ∀ x ∈ l, x ≠ '\n' := hlines l (List.mem_cons_self l ls)
    have hrest : ∀ p ∈ ls, ∀ x ∈ p, x ≠ '\n' :=
      fun p hp => hlines p (List.mem_cons_of_mem l hp)
    intro d g hg
    by_cases he : (pyStrip l).isEmpty = true
    · simp only [indentGo, he, if_true] at hg
      exact ih hrest d g hg
    · have hb : (pyStrip l).isEmpty = false := by simpa using he
      simp only [indentGo, hb, Bool.false_eq_true, if_false] at hg
      rcases List.mem_cons.mp hg with h | h
      · subst h
        constructor
        · intro hnil
          rcases List.append_eq_nil.mp hnil with ⟨_, h2⟩
          rw [h2] at hb
          cases hb
        · intro x hx
          rcases List.mem_append.mp hx with h2 | h2
          · have := (List.mem_replicate.mp h2).2
            rw [this]
            decide
          · exact hl x (mem_pyStrip h2)
      · exact ih hrest _ g h

/-- Claim C6, counterexample: an input with more than five lines trips
the skip guard, so the transform returns the input itself as its output,
and that output can contain a run of three or more newline characters. -/
theorem C6_counterexample :
    reformat ("a\n\n\n\nb\nc\nd".toList) =
      (false, "a\n\n\n\nb\nc\nd".toList) ∧
    hasNl3 ("a\n\n\n\nb\nc\nd".toList) = true := by
  refine ⟨by decide, by decide⟩

/-- Claim C6 as amended: whenever the transform returns
`changed = true`, its output never contains three (indeed even two)
consecutive newline characters, because the indentation pass drops blank
lines and the writer joins nonempty newline-free lines with single
newlines plus one trailing newline. -/
theorem C6_amended (t : List Char) (h : (reformat t).fst = true) :
    hasNl3 (reformat t).snd = false := by
  cases hg : guardB (pyStrip t) with
  | true =>
    unfold reformat at h
    rw [hg] at h
    simp at h
  | false =>
    unfold reformat
    rw [hg]
    simp only [Bool.false_eq_true, if_false]
    show hasNl3 (render (pyStrip t)) = false
    unfold render
    cases e : hasNl3 (joinNl (formattedOf (pyStrip t)) ++ ['\n']) with
    | false => rfl
    | true =>
      exfalso
      have h2 := hasNlNl_of_hasNl3 _ e
      rw [hasNlNl_joinNl (formattedOf (pyStrip t))
        (formattedOf_lines (pyStrip t))] at h2
      exact Bool.noConfusion h2

set_option maxHeartbeats 1000000 in
theorem C6_witness : hasNl3 (reformat ("a".toList)).snd = false :=
  C6_amended ("a".toList) (by decide)

theorem wsRun_ne_zero_head {l : List Char} (h : wsRun l ≠ 0) :
    isPySpace (l.headD 'x') = true := by
  cases l with
  | nil => exact absurd rfl h
  | cons c cs =>
    by_cases hc : isPySpace c = true
    · exact hc
    · exfalso
      apply h
      have hb : isPySpace c = false := by simpa using hc
      simp [wsRun, runLen, hb]

/-- Claim C4: keyword matching is boundary-anchored.  Every keyword rule
matches only when the character before the keyword is not a word
character (`prev = false`) and the character immediately after the
keyword is whitespace — hence not an identifier character — so an
identifier that merely contains a keyword as a substring (such as
`finalScore`, whose `final` is followed by the identifier character `S`)
can never be matched or split; and concretely, reformatting a text
containing `finalScore` keeps that identifier intact on one line. -/
theorem C4_boundary_anchored :
    (∀ (kw : List Char) (prev : Bool) (l : List Char) (n : Nat),
        kwMatch kw prev l = some n →
        prev = false ∧ l.take kw.length = kw ∧
          isPySpace ((l.drop kw.length).headD 'x') = true) ∧
    (∀ (second : List Char) (prev : Bool) (l : List Char) (n : Nat),
        pubKw second prev l = some n →
        prev = false ∧ isPySpace ((l.drop 6).headD 'x') = true) ∧
    (∀ (prev : Bool) (l : List Char) (n : Nat),
        pubOther prev l = some n →
        prev = false ∧ isPySpace ((l.drop 6).headD 'x') = true) ∧
    (∀ c : Char, isPySpace c = true → isWordChar c = false) ∧
    reformat ("class A\x7bstatic int finalScore;\x7d".toList) =
      (true, "class A \x7b\n    static int finalScore;\n\x7d\n".toList) := by
  refine ⟨?_, ?_, ?_, ?_, by decide⟩
  · intro kw prev l n hm
    cases prev with
    | true => simp [kwMatch] at hm
    | false =>
      simp [kwMatch] at hm
      obtain ⟨h1, h2, _⟩ := hm
      exact ⟨rfl, pfx_take kw l h1, wsRun_ne_zero_head h2⟩
  · intro second prev l n hm
    cases prev with
    | true => simp [pubKw] at hm
    | false =>
      simp [pubKw] at hm
      obtain ⟨_, h2, _, _, _⟩ := hm
      exact ⟨rfl, wsRun_ne_zero_head h2⟩
  · intro prev l n hm
    cases prev with
    | true => simp [pubOther] at hm
    | false =>
      simp [pubOther] at hm
      obtain ⟨_, h2, _⟩ := hm
      exact ⟨rfl, wsRun_ne_zero_head h2⟩
  · intro c h
    simp [isPySpace, pySpaceCodes] at h
    rcases h with h|h|h|h|h|h|h|h|h|h|h|h|h|h|h|h|h|h|h|h|h|h|h|h|h|h|h|h|h <;>
      simp [isWordChar, h]

theorem C4_witness :
    false = false ∧
    ("final x".toList).take ("final".toList).length = "final".toList ∧
    isPySpace ((("final x".toList).drop ("final".toList).length).headD 'x') =
      true :=
  C4_boundary_anchored.1 ("final".toList) false ("final x".toList) 6 (by decide)

/-- Claim C8: whenever the transform returns `changed = true`, the
output text written over the document is exactly the formatted lines
joined with single newline characters plus exactly one trailing newline,
where each formatted line is nonempty and newline-free (the file content
is replaced wholesale by this text). -/
theorem C8_writer (t : List Char) (h : (reformat t).fst = true) :
    (reformat t).snd = joinNl (formattedOf (pyStrip t)) ++ ['\n'] ∧
    (∀ g ∈ formattedOf (pyStrip t), g ≠ [] ∧ ∀ x ∈ g, x ≠ '\n') := by
  cases hg : guardB (pyStrip t) with
  | true =>
    unfold reformat at h
    rw [hg] at h
    simp at h
  | false =>
    constructor
    · unfold reformat
      rw [hg]
      simp only [Bool.false_eq_true, if_false]
      rfl
    · exact formattedOf_lines (pyStrip t)

set_option maxHeartbeats 1000000 in
theorem C8_witness :
    (reformat ("a".toList)).snd =
      joinNl (formattedOf (pyStrip ("a".toList))) ++ ['\n'] ∧
    (∀ g ∈ formattedOf (pyStrip ("a".toList)), g ≠ [] ∧ ∀ x ∈ g, x ≠ '\n') :=
  C8_writer ("a".toList) (by decide)

set_option maxRecDepth 8000 in
theorem C2_witness :
    reformat (([] : List Char) ++ baseC2 ++ List.replicate 160 ' ') =
      (true, expectedC2) :=
  C2_scenario [] (List.replicate 160 ' ') (by decide) (by decide)
    (by decide) (by decide)

end Reformat
